import Mathlib

/-!
# libAMOS coordination layer: a formal model

The repository exposes `amos.h`, the C interface of the AMOS runtime.  The
header declares the asynchronous request/notification fabric, the per-track
user-fader ramp scheduler, the transport/telemetry streamer, the preference
deep-merge and the local metadata cache, but ships no implementation.  The
definitions below model those components from the specification and the
header's documentation; theorems establish the documented properties.

Beats and fader values are modelled as rationals (`ℚ`); the C `double`s are
treated as exact arithmetic, which is what the contracts speak about.
-/

namespace Amos

/-! ## Parameter ramp scheduler (spec §4.3, header `amos_ramp_user_fader`,
`amos_get_user_fader_value`) -/

/-- Modelled from the spec: `FaderRampState` (§3) — one per track; the
implementation behind `amos_ramp_user_fader` is not in the sources.
`queued` holds an optional deferred ramp as `(target, requestedEndBeat)`. -/
structure RampState where
  currentValue : ℚ
  targetValue : ℚ
  startBeat : ℚ
  endBeat : ℚ
  queued : Option (ℚ × ℚ)
deriving DecidableEq, Repr

/-- Modelled from the spec: `sampleAt(beat)` (§4.3) — linear interpolation
between `currentValue` at `startBeat` and `targetValue` at `endBeat`,
clamped outside `[startBeat, endBeat]`.  A zero-length ramp
(`startBeat = endBeat`) samples to the target. -/
def sampleAt (r : RampState) (beat : ℚ) : ℚ :=
  if beat < r.startBeat then r.currentValue
  else if r.endBeat ≤ beat then r.targetValue
  else r.currentValue +
    (r.targetValue - r.currentValue) * (beat - r.startBeat) / (r.endBeat - r.startBeat)

/-- A ramp is still active at `now` when its end beat lies in the future. -/
def isRamping (r : RampState) (now : ℚ) : Bool :=
  now < r.endBeat

/-- Modelled from the spec: `requestRamp(track, target, durationBeats)`
(§4.3, header note on `amos_ramp_user_fader`) — when idle, start a linear
ramp from the present value to `target` over `duration` beats; when already
ramping, queue the request (depth 1, §9) remembering its originally
requested end beat. -/
def requestRamp (r : RampState) (target duration now : ℚ) : RampState :=
  if isRamping r now then
    { r with queued := some (target, now + duration) }
  else
    { currentValue := sampleAt r now
      targetValue := target
      startBeat := now
      endBeat := now + duration
      queued := none }

/-- Modelled from the spec: completion of the active ramp (§4.3) — at
`endBeat` the value settles on the target; a queued ramp then begins from
that point, keeping its originally requested end beat when that beat is
still in the future, and degenerating to an instantaneous set otherwise
("finish current, then rush"). -/
def completeRamp (r : RampState) : RampState :=
  match r.queued with
  | none =>
      { r with currentValue := r.targetValue, startBeat := r.endBeat }
  | some (t, reqEnd) =>
      { currentValue := r.targetValue
        targetValue := t
        startBeat := r.endBeat
        endBeat := max reqEnd r.endBeat
        queued := none }

/-- Modelled from the spec: `getCurrentValue(track)` /
`amos_get_user_fader_value` — reads the fader as a snapshot of the track's
ramp state at the present beat. -/
def getCurrentValue (r : RampState) (now : ℚ) : ℚ :=
  sampleAt r now

/-- The seven per-track ramp states (tracks 0–6, §3). -/
def Scheduler : Type := Fin 7 → RampState

/-- Modelled from the spec: `amos_ramp_user_fader(track, …)` applied to the
whole scheduler — only the addressed track changes. -/
def schedRequestRamp (s : Scheduler) (t : Fin 7) (target duration now : ℚ) : Scheduler :=
  fun i => if i = t then requestRamp (s i) target duration now else s i

/-- Modelled from the spec: `amos_get_user_fader_value(track)` on the whole
scheduler. -/
def schedGetCurrentValue (s : Scheduler) (t : Fin 7) (now : ℚ) : ℚ :=
  getCurrentValue (s t) now

/-! ## Request/notification bus (spec §4.1, §4.2; header notes on the
async `amos_*_async` calls such as `amos_cache_experience_list`) -/

/-- Modelled from the spec: the `result` field of a completion
notification (§4.1, header: `result: res` where `res` is a boolean). -/
inductive Payload where
  | success
  | failure
deriving DecidableEq, Repr

/-- Modelled from the spec: a correlated `Notification` (§3) — the tagged
body posted to the client's callback, carrying the originating request id. -/
structure Notification where
  requestId : ℕ
  payload : Payload
deriving DecidableEq, Repr

/-- Modelled from the spec: the bus state (§4.1) — the in-flight requests
(request id paired with its timeout deadline) and the history of
notifications delivered to the sink.  The implementation behind the async
calls is not in the sources. -/
structure BusState where
  inflight : List (ℕ × ℕ)
  delivered : List Notification
deriving DecidableEq, Repr

/-- The empty bus, before any request was issued. -/
def initBus : BusState := ⟨[], []⟩

/-- Whether a request id is currently in-flight. -/
def isInflight (s : BusState) (rid : ℕ) : Bool :=
  s.inflight.any fun p => p.1 == rid

inductive IssueError where
  | duplicateRequestId
deriving DecidableEq, Repr

/-- Modelled from the spec: `issue(requestId, kind, timeout)` (§4.1) —
fails with `DuplicateRequestId` when the id is in-flight, otherwise
registers the request with deadline `now + timeout`. -/
def issue (s : BusState) (rid timeout now : ℕ) : Except IssueError BusState :=
  if isInflight s rid then Except.error IssueError.duplicateRequestId
  else Except.ok { s with inflight := (rid, now + timeout) :: s.inflight }

/-- Modelled from the spec: a worker reply for `requestId` (§4.1
`complete`/`fail`) — delivered exactly once while the request is in-flight;
a reply for a request that is no longer in-flight (late reply after
timeout, or never issued) is discarded. -/
def complete (s : BusState) (rid : ℕ) (p : Payload) : BusState :=
  if isInflight s rid then
    { inflight := s.inflight.filter fun q => !(q.1 == rid)
      delivered := s.delivered ++ [⟨rid, p⟩] }
  else s

/-- Modelled from the spec: the timeout sweep (§4.1 timeout policy) — every
in-flight request whose deadline has passed is marked terminal and a
synthesized failure notification (`result:false`) is delivered for it. -/
def tick (s : BusState) (now : ℕ) : BusState :=
  { inflight := s.inflight.filter fun p => decide (now < p.2)
    delivered := s.delivered ++
      (s.inflight.filter fun p => decide (p.2 ≤ now)).map fun p => ⟨p.1, Payload.failure⟩ }

/-- The events the bus reacts to: a request issued on the control thread, a
worker reply, and the advance of the clock used for the timeout sweep. -/
inductive BusEvent where
  | issueReq (rid timeout now : ℕ)
  | reply (rid : ℕ) (p : Payload)
  | clock (now : ℕ)
deriving DecidableEq, Repr

/-- One bus transition (a failed issue leaves the state unchanged). -/
def busStep (s : BusState) : BusEvent → BusState
  | BusEvent.issueReq rid timeout now =>
      match issue s rid timeout now with
      | Except.ok s' => s'
      | Except.error _ => s
  | BusEvent.reply rid p => complete s rid p
  | BusEvent.clock now => tick s now

/-- Run the bus over a sequence of events. -/
def busRun (s : BusState) (es : List BusEvent) : BusState :=
  es.foldl busStep s

/-- How many notifications carrying `rid` have been delivered. -/
def dcount (s : BusState) (rid : ℕ) : ℕ :=
  (s.delivered.map Notification.requestId).count rid

/-- `1` when `rid` is in-flight, `0` otherwise. -/
def inflight01 (s : BusState) (rid : ℕ) : ℕ :=
  if isInflight s rid then 1 else 0

/-- How many times an event issues the request id `rid`. -/
def issuesOf (rid : ℕ) : BusEvent → ℕ
  | BusEvent.issueReq r _ _ => if r = rid then 1 else 0
  | _ => 0

/-- How many times a trace issues the request id `rid`. -/
def traceIssues (rid : ℕ) (es : List BusEvent) : ℕ :=
  (es.map (issuesOf rid)).sum

/-! ## Worker process proxies (spec §4.2, header `amos_cache_experience_list`
"downloads … on the aimiscript download process (procnum 1)") -/

/-- The two addressable background workers (§4.2). -/
inductive Worker where
  | download
  | play
deriving DecidableEq, Repr

/-- Modelled from the spec: `WorkerTask` (§3) — a message bound for one
worker, consumed exactly once. -/
structure WorkerTask where
  targetWorker : Worker
  requestId : ℕ
deriving DecidableEq, Repr

/-- Modelled from the spec: the proxy's view of a worker (§4.2) — whether
the worker process is available (started and not crashed). -/
structure WorkerProxy where
  worker : Worker
  available : Bool
deriving DecidableEq, Repr

inductive SubmitError where
  | workerUnavailable
  | duplicateRequestId
deriving DecidableEq, Repr

/-- Modelled from the spec: `submit(task)` (§4.2) — fails synchronously
with `WorkerUnavailable` when the target worker is unavailable (the task is
not queued and the bus is not engaged); otherwise the request is issued on
the bus and the task handed to the worker. -/
def submit (w : WorkerProxy) (s : BusState) (tk : WorkerTask) (timeout now : ℕ) :
    Except SubmitError (BusState × WorkerTask) :=
  if w.available then
    match issue s tk.requestId timeout now with
    | Except.ok s' => Except.ok (s', tk)
    | Except.error _ => Except.error SubmitError.duplicateRequestId
  else Except.error SubmitError.workerUnavailable

/-! ## Transport/telemetry streamer (spec §4.4, header
`amos_start_transport_msgs` / `amos_stop_transport_msgs`) -/

/-- Modelled from the spec: the streamer's state (§4.4) — whether emission
is running, the configured beat period, and the beat of the next scheduled
tick.  The implementation behind `amos_start_transport_msgs` is not in the
sources. -/
structure StreamerState where
  running : Bool
  period : ℚ
  nextTick : ℚ
deriving DecidableEq, Repr

/-- The streamer before any `start` call. -/
def initStreamer : StreamerState := ⟨false, 1, 0⟩

/-- Modelled from the spec: `start(kind, beatPeriod)` (§4.4) — begins
periodic emission at the given subdivision; a second `start` without a
`stop` has no additional effect. -/
def startMsgs (st : StreamerState) (beatPeriod now : ℚ) : StreamerState :=
  if st.running then st else ⟨true, beatPeriod, now + beatPeriod⟩

/-- Modelled from the spec: `stop(kind)` (§4.4) — halts emission before the
next scheduled tick. -/
def stopMsgs (st : StreamerState) : StreamerState :=
  { st with running := false }

/-- Number of ticks emitted when the audio clock advances to `toBeat`. -/
def tickCount (st : StreamerState) (toBeat : ℚ) : ℕ :=
  if st.running ∧ 0 < st.period ∧ st.nextTick ≤ toBeat then
    (⌊(toBeat - st.nextTick) / st.period⌋).toNat + 1
  else 0

/-- Modelled from the spec: advancing the audio clock to `toBeat` (§2, §4.4
"driven by the audio clock") — emits every scheduled tick up to `toBeat`,
each spaced one period after the previous, and reschedules. -/
def advanceClock (st : StreamerState) (toBeat : ℚ) : List ℚ × StreamerState :=
  ((List.range (tickCount st toBeat)).map fun i : ℕ => st.nextTick + (i : ℚ) * st.period,
   { st with nextTick := st.nextTick + tickCount st toBeat * st.period })

/-! ## Preference deep merge (spec §4.5, header
`amos_download_user_preferences`: "perform a deep merge, favouring the
local data on conflict") -/

/-- Modelled from the spec: `PreferenceTree` (§3) — a hierarchical
JSON-like document: leaves or string-keyed containers.  The merger's
implementation is not in the sources. -/
inductive PrefTree where
  | leaf (v : Int)
  | node (children : List (String × PrefTree))

/-- Look a key up in a container's children (first match). -/
def lookupKey (k : String) : List (String × PrefTree) → Option PrefTree
  | [] => none
  | (k', v) :: rest => if k' = k then some v else lookupKey k rest

/-- Whether a key occurs among a container's children. -/
def hasKey (k : String) (l : List (String × PrefTree)) : Bool :=
  (lookupKey k l).isSome

/-- Modelled from the spec: `merge(local, remote)` (§4.5) — recursive deep
merge: containers are merged key-by-key (keys of the local side first,
merged with the remote value when the key exists there too, then the
remote-only keys), and in every other case the local side wins. -/
def mergeTree : PrefTree → PrefTree → PrefTree
  | PrefTree.node ls, PrefTree.node rs =>
      PrefTree.node
        ((ls.attach.map fun p =>
          (p.1.1, match lookupKey p.1.1 rs with
                  | some rv => mergeTree p.1.2 rv
                  | none => p.1.2)) ++
         rs.filter fun q => !(hasKey q.1 ls))
  | l, _ => l
termination_by t _ => sizeOf t
decreasing_by
  all_goals
    simp_wf
    obtain ⟨⟨k, v⟩, hp⟩ := p
    have h1 := List.sizeOf_lt_of_mem hp
    simp at h1 ⊢
    omega

/-- The key-by-key merge of two containers' children (the container case of
`mergeTree`, stated on plain lists). -/
def mergeChildren (ls rs : List (String × PrefTree)) : List (String × PrefTree) :=
  (ls.map fun p =>
    (p.1, match lookupKey p.1 rs with
          | some rv => mergeTree p.2 rv
          | none => p.2)) ++
  rs.filter fun q => !(hasKey q.1 ls)

/-- A well-formed preference tree: container keys are distinct at every
level (JSON objects have unique keys). -/
inductive WFTree : PrefTree → Prop where
  | leaf (v : Int) : WFTree (PrefTree.leaf v)
  | node (cs : List (String × PrefTree)) :
      (cs.map Prod.fst).Nodup → (∀ p ∈ cs, WFTree p.2) → WFTree (PrefTree.node cs)

/-! ## Local metadata cache (header `amos_experiences_get_theme_count`,
`amos_local_theme_count`) -/

/-- Modelled from the spec: the per-experience theme statistics held in the
daughter database (header: `{ themeCount: a, downloadedThemeCount: b }`). -/
structure ThemeStats where
  themeCount : ℕ
  downloadedThemeCount : ℕ
deriving DecidableEq, Repr

/-- Modelled from the spec: the local (daughter) store of cached experience
metadata, keyed by experience id.  The query implementations are not in the
sources. -/
structure LocalStore where
  cached : List (ℤ × ThemeStats)
deriving DecidableEq, Repr

/-- The cached metadata for an experience, when present. -/
def findCached (st : LocalStore) (expid : ℤ) : Option ThemeStats :=
  (st.cached.find? fun p => p.1 == expid).map Prod.snd

/-- Modelled from the spec: `amos_experiences_get_theme_count` (header
lines 235–241) — the number of themes, or 0 when the experience was not
found. -/
def experiencesGetThemeCount (st : LocalStore) (expid : ℤ) : ℕ :=
  match findCached st expid with
  | some ts => ts.themeCount
  | none => 0

/-- Modelled from the spec: `amos_local_theme_count` (header lines 691–701)
— theme statistics according to the cached metadata; with no cached
metadata it reports no themes. -/
def localThemeCount (st : LocalStore) (expid : ℤ) : ThemeStats :=
  match findCached st expid with
  | some ts => ts
  | none => ⟨0, 0⟩

end Amos

namespace Amos

/-! ## Theorems: ramp scheduler basics -/

theorem sampleAt_left (r : RampState) (b : ℚ) (h : b < r.startBeat) :
    sampleAt r b = r.currentValue := by
  simp [sampleAt, h]

theorem sampleAt_right (r : RampState) (b : ℚ) (hr : r.startBeat ≤ r.endBeat)
    (h : r.endBeat ≤ b) : sampleAt r b = r.targetValue := by
  have : ¬ b < r.startBeat := not_lt.mpr (le_trans hr h)
  simp [sampleAt, this, h]

theorem sampleAt_start (r : RampState) (h : r.startBeat < r.endBeat) :
    sampleAt r r.startBeat = r.currentValue := by
  simp [sampleAt, not_le.mpr h]

theorem convex_comb_bounds (c t q : ℚ) (h0 : 0 ≤ q) (h1 : q ≤ 1) :
    min c t ≤ c + (t - c) * q ∧ c + (t - c) * q ≤ max c t := by
  rcases le_total c t with h | h
  · rw [min_eq_left h, max_eq_right h]
    constructor <;> nlinarith
  · rw [min_eq_right h, max_eq_left h]
    constructor <;> nlinarith

theorem sampleAt_between (r : RampState) (b : ℚ) :
    min r.currentValue r.targetValue ≤ sampleAt r b ∧
    sampleAt r b ≤ max r.currentValue r.targetValue := by
  unfold sampleAt
  split_ifs with h1 h2
  · exact ⟨min_le_left _ _, le_max_left _ _⟩
  · exact ⟨min_le_right _ _, le_max_right _ _⟩
  · have hs : r.startBeat ≤ b := not_lt.mp h1
    have hb : b < r.endBeat := not_le.mp h2
    have hden : (0 : ℚ) < r.endBeat - r.startBeat := by linarith
    have hq0 : 0 ≤ (b - r.startBeat) / (r.endBeat - r.startBeat) :=
      div_nonneg (by linarith) (le_of_lt hden)
    have hq1 : (b - r.startBeat) / (r.endBeat - r.startBeat) ≤ 1 :=
      (div_le_one hden).mpr (by linarith)
    have hrw : r.currentValue +
        (r.targetValue - r.currentValue) * (b - r.startBeat) / (r.endBeat - r.startBeat)
        = r.currentValue + (r.targetValue - r.currentValue) *
            ((b - r.startBeat) / (r.endBeat - r.startBeat)) := by
      rw [mul_div_assoc]
    rw [hrw]
    exact convex_comb_bounds _ _ _ hq0 hq1

/-! ## Theorems: bus basics -/

theorem isInflight_iff (s : BusState) (rid : ℕ) :
    isInflight s rid = true ↔ rid ∈ s.inflight.map Prod.fst := by
  simp [isInflight, List.any_eq_true, List.mem_map, beq_iff_eq]

theorem isInflight_false_iff (s : BusState) (rid : ℕ) :
    isInflight s rid = false ↔ rid ∉ s.inflight.map Prod.fst := by
  rw [← isInflight_iff]
  cases isInflight s rid <;> simp

theorem busRun_cons (s : BusState) (e : BusEvent) (es : List BusEvent) :
    busRun s (e :: es) = busRun (busStep s e) es := rfl

theorem key_unique (l : List (ℕ × ℕ)) (hnd : (l.map Prod.fst).Nodup)
    {q q' : ℕ × ℕ} (hq : q ∈ l) (hq' : q' ∈ l) (h : q.1 = q'.1) : q = q' :=
  List.inj_on_of_nodup_map hnd hq hq' h

theorem nodupKeys_filter (l : List (ℕ × ℕ)) (f : ℕ × ℕ → Bool)
    (h : (l.map Prod.fst).Nodup) : ((l.filter f).map Prod.fst).Nodup :=
  h.sublist ((l.filter_sublist).map Prod.fst)

theorem busStep_nodupKeys (s : BusState) (e : BusEvent)
    (h : (s.inflight.map Prod.fst).Nodup) :
    ((busStep s e).inflight.map Prod.fst).Nodup := by
  cases e with
  | issueReq rid t now =>
      by_cases hin : isInflight s rid = true
      · simp [busStep, issue, hin, h]
      · rw [Bool.not_eq_true] at hin
        have hmem := (isInflight_false_iff s rid).mp hin
        simp [busStep, issue, hin, List.nodup_cons, hmem, h]
  | reply rid p =>
      by_cases hin : isInflight s rid = true
      · simp only [busStep, complete, hin, if_true]
        exact nodupKeys_filter _ _ h
      · rw [Bool.not_eq_true] at hin
        simp [busStep, complete, hin, h]
  | clock now =>
      simp only [busStep, tick]
      exact nodupKeys_filter _ _ h

theorem busRun_nodupKeys (s : BusState) (es : List BusEvent)
    (h : (s.inflight.map Prod.fst).Nodup) :
    ((busRun s es).inflight.map Prod.fst).Nodup := by
  induction es generalizing s with
  | nil => exact h
  | cons e es ih =>
      rw [busRun_cons]
      exact ih (busStep s e) (busStep_nodupKeys s e h)

theorem tick_delivered_keys (s : BusState) (now rid : ℕ) :
    dcount (tick s now) rid
      = dcount s rid
        + ((s.inflight.filter fun p => decide (p.2 ≤ now)).map Prod.fst).count rid := by
  simp only [dcount, tick, List.map_append, List.count_append, List.map_map]
  rfl

theorem mem_keys_filter_unique (l : List (ℕ × ℕ)) (f : ℕ × ℕ → Bool)
    (hnd : (l.map Prod.fst).Nodup) {q : ℕ × ℕ} (hq : q ∈ l) (hfq : f q = false) :
    q.1 ∉ (l.filter f).map Prod.fst := by
  intro hmem
  rcases List.mem_map.mp hmem with ⟨q', hq', hkey⟩
  rcases List.mem_filter.mp hq' with ⟨hq'l, hfq'⟩
  have : q' = q := key_unique l hnd hq'l hq hkey
  rw [this] at hfq'
  rw [hfq] at hfq'
  exact Bool.false_ne_true hfq'

theorem tick_count_bound (s : BusState) (now rid : ℕ)
    (hnd : (s.inflight.map Prod.fst).Nodup) :
    dcount (tick s now) rid + inflight01 (tick s now) rid
      ≤ dcount s rid + inflight01 s rid := by
  rw [tick_delivered_keys]
  by_cases hin : isInflight s rid = true
  · rcases List.mem_map.mp ((isInflight_iff s rid).mp hin) with ⟨q, hq, hkey⟩
    have hone : (s.inflight.map Prod.fst).count rid = 1 :=
      List.count_eq_one_of_mem hnd ((isInflight_iff s rid).mp hin)
    by_cases hexp : q.2 ≤ now
    · have hXle : ((s.inflight.filter fun p => decide (p.2 ≤ now)).map Prod.fst).count rid ≤ 1 := by
        calc ((s.inflight.filter fun p => decide (p.2 ≤ now)).map Prod.fst).count rid
            ≤ (s.inflight.map Prod.fst).count rid :=
              (((s.inflight.filter_sublist).map Prod.fst).count_le rid)
          _ = 1 := hone
      have hY : inflight01 (tick s now) rid = 0 := by
        have hnot : rid ∉ ((s.inflight.filter fun p => decide (now < p.2)).map Prod.fst) := by
          have := mem_keys_filter_unique s.inflight (fun p => decide (now < p.2)) hnd hq
            (by simp [not_lt.mpr hexp])
          rwa [hkey] at this
        simp [inflight01, (isInflight_false_iff _ _).mpr, tick]
        rw [isInflight_false_iff]
        exact hnot
      rw [hY]
      have hZ : inflight01 s rid = 1 := by simp [inflight01, hin]
      rw [hZ]
      omega
    · have hX : ((s.inflight.filter fun p => decide (p.2 ≤ now)).map Prod.fst).count rid = 0 := by
        rw [List.count_eq_zero]
        have := mem_keys_filter_unique s.inflight (fun p => decide (p.2 ≤ now)) hnd hq
          (by simp [hexp])
        rwa [hkey] at this
      have hY : inflight01 (tick s now) rid ≤ 1 := by
        unfold inflight01
        split <;> omega
      have hZ : inflight01 s rid = 1 := by simp [inflight01, hin]
      omega
  · rw [Bool.not_eq_true] at hin
    have hmem := (isInflight_false_iff s rid).mp hin
    have hX : ((s.inflight.filter fun p => decide (p.2 ≤ now)).map Prod.fst).count rid = 0 := by
      rw [List.count_eq_zero]
      intro hc
      rcases List.mem_map.mp hc with ⟨q, hq, hkey⟩
      exact hmem (List.mem_map.mpr ⟨q, List.mem_of_mem_filter hq, hkey⟩)
    have hY : inflight01 (tick s now) rid = 0 := by
      have hnot : rid ∉ ((s.inflight.filter fun p => decide (now < p.2)).map Prod.fst) := by
        intro hc
        rcases List.mem_map.mp hc with ⟨q, hq, hkey⟩
        exact hmem (List.mem_map.mpr ⟨q, List.mem_of_mem_filter hq, hkey⟩)
      simp [inflight01, tick]
      rw [isInflight_false_iff]
      exact hnot
    have hZ : inflight01 s rid = 0 := by simp [inflight01, hin]
    omega

theorem not_inflight_removed (l : List (ℕ × ℕ)) (rid0 : ℕ) :
    rid0 ∉ (l.filter fun q => !(q.1 == rid0)).map Prod.fst := by
  intro hc
  rcases List.mem_map.mp hc with ⟨q, hq, hkey⟩
  have h2 := (List.mem_filter.mp hq).2
  rw [hkey] at h2
  simp at h2

theorem mem_keys_filter_ne (l : List (ℕ × ℕ)) (rid0 rid : ℕ) (hne : rid ≠ rid0) :
    rid ∈ (l.filter fun q => !(q.1 == rid0)).map Prod.fst ↔ rid ∈ l.map Prod.fst := by
  constructor
  · intro hc
    rcases List.mem_map.mp hc with ⟨q, hq, hkey⟩
    exact List.mem_map.mpr ⟨q, List.mem_of_mem_filter hq, hkey⟩
  · intro hc
    rcases List.mem_map.mp hc with ⟨q, hq, hkey⟩
    refine List.mem_map.mpr ⟨q, List.mem_filter.mpr ⟨hq, ?_⟩, hkey⟩
    simp [hkey, hne]

theorem complete_count_bound (s : BusState) (rid0 rid : ℕ) (p : Payload)
    (hnd : (s.inflight.map Prod.fst).Nodup) :
    dcount (complete s rid0 p) rid + inflight01 (complete s rid0 p) rid
      ≤ dcount s rid + inflight01 s rid := by
  by_cases hin : isInflight s rid0 = true
  · have hc : complete s rid0 p
        = ⟨s.inflight.filter fun q => !(q.1 == rid0), s.delivered ++ [⟨rid0, p⟩]⟩ := by
      simp [complete, hin]
    rw [hc]
    by_cases heq : rid0 = rid
    · subst heq
      have hd : dcount ⟨s.inflight.filter fun q => !(q.1 == rid0),
          s.delivered ++ [⟨rid0, p⟩]⟩ rid0 = dcount s rid0 + 1 := by
        simp [dcount, List.map_append, List.count_append]
      have hi : inflight01 ⟨s.inflight.filter fun q => !(q.1 == rid0),
          s.delivered ++ [⟨rid0, p⟩]⟩ rid0 = 0 := by
        unfold inflight01
        rw [if_neg]
        rw [isInflight_iff]
        exact fun hmem => not_inflight_removed s.inflight rid0 hmem
      have hz : inflight01 s rid0 = 1 := by simp [inflight01, hin]
      omega
    · have hd : dcount ⟨s.inflight.filter fun q => !(q.1 == rid0),
          s.delivered ++ [⟨rid0, p⟩]⟩ rid = dcount s rid := by
        simp [dcount, List.map_append, List.count_append, List.count_singleton', heq]
      have hi : inflight01 ⟨s.inflight.filter fun q => !(q.1 == rid0),
          s.delivered ++ [⟨rid0, p⟩]⟩ rid = inflight01 s rid := by
        unfold inflight01
        by_cases hmem : rid ∈ s.inflight.map Prod.fst
        · rw [if_pos, if_pos ((isInflight_iff s rid).mpr hmem)]
          rw [isInflight_iff]
          exact (mem_keys_filter_ne s.inflight rid0 rid (fun h => heq h.symm)).mpr hmem
        · rw [if_neg, if_neg]
          · rw [isInflight_iff] at *
            exact hmem
          · rw [isInflight_iff]
            intro hcon
            exact hmem ((mem_keys_filter_ne s.inflight rid0 rid (fun h => heq h.symm)).mp hcon)
      omega
  · rw [Bool.not_eq_true] at hin
    simp [complete, hin]

theorem issue_count_bound (s : BusState) (r t n rid : ℕ) :
    dcount (busStep s (BusEvent.issueReq r t n)) rid
      + inflight01 (busStep s (BusEvent.issueReq r t n)) rid
      ≤ dcount s rid + inflight01 s rid + issuesOf rid (BusEvent.issueReq r t n) := by
  by_cases hin : isInflight s r = true
  · simp only [busStep, issue, hin, if_true, issuesOf]
    split_ifs <;> omega
  · rw [Bool.not_eq_true] at hin
    have hs' : busStep s (BusEvent.issueReq r t n)
        = { s with inflight := (r, n + t) :: s.inflight } := by
      simp [busStep, issue, hin]
    rw [hs']
    have hdc : dcount { s with inflight := (r, n + t) :: s.inflight } rid
        = dcount s rid := rfl
    rw [hdc]
    by_cases heq : r = rid
    · subst heq
      have h0 : inflight01 s r = 0 := by simp [inflight01, hin]
      have h1 : inflight01 { s with inflight := (r, n + t) :: s.inflight } r ≤ 1 := by
        unfold inflight01
        split <;> omega
      have h3 : issuesOf r (BusEvent.issueReq r t n) = 1 := by simp [issuesOf]
      rw [h3]
      omega
    · have h2 : inflight01 { s with inflight := (r, n + t) :: s.inflight } rid
          = inflight01 s rid := by
        unfold inflight01
        have hi : isInflight { s with inflight := (r, n + t) :: s.inflight } rid
            = isInflight s rid := by
          simp [isInflight, List.any_cons, beq_eq_false_iff_ne.mpr heq]
        rw [hi]
      rw [h2]
      simp only [issuesOf, if_neg heq]
      omega

theorem busStep_count_bound (s : BusState) (e : BusEvent) (rid : ℕ)
    (hnd : (s.inflight.map Prod.fst).Nodup) :
    dcount (busStep s e) rid + inflight01 (busStep s e) rid
      ≤ dcount s rid + inflight01 s rid + issuesOf rid e := by
  cases e with
  | issueReq r t n => exact issue_count_bound s r t n rid
  | reply r p =>
      have h := complete_count_bound s r rid p hnd
      simpa [busStep, issuesOf] using h
  | clock now =>
      have h := tick_count_bound s now rid hnd
      simpa [busStep, issuesOf] using h

theorem busRun_count_bound (s : BusState) (es : List BusEvent) (rid : ℕ)
    (hnd : (s.inflight.map Prod.fst).Nodup) :
    dcount (busRun s es) rid + inflight01 (busRun s es) rid
      ≤ dcount s rid + inflight01 s rid + traceIssues rid es := by
  induction es generalizing s with
  | nil => simp [busRun, traceIssues]
  | cons e es ih =>
      rw [busRun_cons]
      have h1 := ih (busStep s e) (busStep_nodupKeys s e hnd)
      have h2 := busStep_count_bound s e rid hnd
      have h3 : traceIssues rid (e :: es) = issuesOf rid e + traceIssues rid es := by
        simp [traceIssues]
      omega

/-- C1: a request issued at most once in a trace receives at most one
notification carrying its request id; the timeout sweep at or after the
deadline of an in-flight request delivers a `result:false` failure
notification for it and makes it terminal (no longer in-flight); and a
worker reply arriving when the request is no longer in-flight is discarded,
leaving the bus unchanged. -/
theorem request_notified_exactly_once (es : List BusEvent) (rid : ℕ)
    (honce : traceIssues rid es ≤ 1) :
    dcount (busRun initBus es) rid ≤ 1 ∧
    (∀ s d now, (s.inflight.map Prod.fst).Nodup → (rid, d) ∈ s.inflight → d ≤ now →
      (⟨rid, Payload.failure⟩ : Notification) ∈ (tick s now).delivered ∧
      isInflight (tick s now) rid = false) ∧
    (∀ s p, isInflight s rid = false → complete s rid p = s) := by
  refine ⟨?_, ?_, ?_⟩
  · have h := busRun_count_bound initBus es rid (by simp [initBus])
    have h0 : dcount initBus rid = 0 := rfl
    have h1 : inflight01 initBus rid = 0 := rfl
    omega
  · intro s d now hnd hmem hle
    constructor
    · have hdel : (tick s now).delivered = s.delivered ++
          (s.inflight.filter fun p => decide (p.2 ≤ now)).map
            fun p => (⟨p.1, Payload.failure⟩ : Notification) := rfl
      rw [hdel]
      refine List.mem_append.mpr (Or.inr ?_)
      exact List.mem_map.mpr ⟨(rid, d), List.mem_filter.mpr ⟨hmem, by simp [hle]⟩, rfl⟩
    · rw [isInflight_false_iff]
      have hinf : (tick s now).inflight
          = s.inflight.filter fun p => decide (now < p.2) := rfl
      rw [hinf]
      exact mem_keys_filter_unique s.inflight (fun p => decide (now < p.2)) hnd hmem
        (by simp; omega)
  · intro s p hin
    simp [complete, hin]

/-- C1 witness: issuing request 1 with timeout 5 and letting the clock
reach the deadline delivers at most one notification for id 1. -/
theorem request_notified_exactly_once_witness :
    traceIssues 1 [BusEvent.issueReq 1 5 0, BusEvent.clock 5] ≤ 1 ∧
    dcount (busRun initBus [BusEvent.issueReq 1 5 0, BusEvent.clock 5]) 1 ≤ 1 :=
  ⟨by decide,
   (request_notified_exactly_once [BusEvent.issueReq 1 5 0, BusEvent.clock 5] 1 (by decide)).1⟩

/-- C6: issuing a request id that is currently in-flight fails with
`DuplicateRequestId`; issuing an id that is not in-flight succeeds; and
after the earlier request reached its terminal state through a worker
reply (or a timeout sweep, fourth conjunct), reissuing the same id
succeeds. -/
theorem issue_duplicate_only_inflight (s : BusState) (rid t now : ℕ) :
    (isInflight s rid = true →
      issue s rid t now = Except.error IssueError.duplicateRequestId) ∧
    (isInflight s rid = false →
      issue s rid t now = Except.ok { s with inflight := (rid, now + t) :: s.inflight }) ∧
    (∀ p t2 now2, ∃ s', issue (complete s rid p) rid t2 now2 = Except.ok s') ∧
    (∀ d now2 t2 now3, (s.inflight.map Prod.fst).Nodup → (rid, d) ∈ s.inflight →
      d ≤ now2 → ∃ s', issue (tick s now2) rid t2 now3 = Except.ok s') := by
  refine ⟨fun h => by simp [issue, h], fun h => by simp [issue, h], ?_, ?_⟩
  · intro p t2 now2
    have hni : isInflight (complete s rid p) rid = false := by
      by_cases hin : isInflight s rid = true
      · have hc : (complete s rid p).inflight
            = s.inflight.filter fun q => !(q.1 == rid) := by
          simp [complete, hin]
        rw [isInflight_false_iff, hc]
        exact not_inflight_removed s.inflight rid
      · rw [Bool.not_eq_true] at hin
        simp [complete, hin]
    exact ⟨{ complete s rid p with
      inflight := (rid, now2 + t2) :: (complete s rid p).inflight },
      by simp [issue, hni]⟩
  · intro d now2 t2 now3 hnd hmem hle
    have hni : isInflight (tick s now2) rid = false := by
      rw [isInflight_false_iff]
      have hinf : (tick s now2).inflight
          = s.inflight.filter fun p => decide (now2 < p.2) := rfl
      rw [hinf]
      exact mem_keys_filter_unique s.inflight (fun p => decide (now2 < p.2)) hnd hmem
        (by simp; omega)
    exact ⟨{ tick s now2 with
      inflight := (rid, now3 + t2) :: (tick s now2).inflight },
      by simp [issue, hni]⟩

/-- C6 witness: with request id 4 in-flight, reissuing 4 fails with
`DuplicateRequestId`. -/
theorem issue_duplicate_only_inflight_witness :
    isInflight ⟨[(4, 9)], []⟩ 4 = true ∧
    issue ⟨[(4, 9)], []⟩ 4 3 1 = Except.error IssueError.duplicateRequestId :=
  ⟨by decide, (issue_duplicate_only_inflight ⟨[(4, 9)], []⟩ 4 3 1).1 (by decide)⟩

/-- C7: submitting a task to an unavailable worker fails synchronously with
`WorkerUnavailable` (the task is not queued and the bus state is not
touched), and a request id that was never issued on the bus never has a
notification delivered for it, whatever events follow. -/
theorem submit_unavailable_never_notified (w : WorkerProxy) (s : BusState)
    (tk : WorkerTask) (t now : ℕ) (hw : w.available = false) :
    submit w s tk t now = Except.error SubmitError.workerUnavailable ∧
    (∀ es, (s.inflight.map Prod.fst).Nodup → isInflight s tk.requestId = false →
      dcount s tk.requestId = 0 → (∀ e ∈ es, issuesOf tk.requestId e = 0) →
      dcount (busRun s es) tk.requestId = 0) := by
  constructor
  · simp [submit, hw]
  · intro es hnd hin h0 hnone
    have hti : traceIssues tk.requestId es = 0 := by
      unfold traceIssues
      apply List.sum_eq_zero
      intro x hx
      rcases List.mem_map.mp hx with ⟨e, he, hxe⟩
      rw [← hxe]
      exact hnone e he
    have h := busRun_count_bound s es tk.requestId hnd
    have h1 : inflight01 s tk.requestId = 0 := by simp [inflight01, hin]
    omega

/-- C7 witness: submitting request 7 to the unstarted download worker on an
empty bus fails with `WorkerUnavailable`. -/
theorem submit_unavailable_never_notified_witness :
    (⟨Worker.download, false⟩ : WorkerProxy).available = false ∧
    submit ⟨Worker.download, false⟩ initBus ⟨Worker.download, 7⟩ 5 0
      = Except.error SubmitError.workerUnavailable :=
  ⟨rfl, (submit_unavailable_never_notified ⟨Worker.download, false⟩ initBus
    ⟨Worker.download, 7⟩ 5 0 rfl).1⟩

/-- C3: for every ramp state with positive duration, `sampleAt` hits
`currentValue` exactly at `startBeat`, hits `targetValue` exactly at
`startBeat + duration`, is linear in the beat argument on
`[startBeat, startBeat + duration]`, and is clamped to the endpoint values
outside that interval. -/
theorem sampleAt_linear_clamped (r : RampState) (duration : ℚ)
    (hd : 0 < duration) (he : r.endBeat = r.startBeat + duration) :
    sampleAt r r.startBeat = r.currentValue ∧
    sampleAt r (r.startBeat + duration) = r.targetValue ∧
    (∀ q : ℚ, 0 ≤ q → q ≤ 1 →
      sampleAt r (r.startBeat + q * duration)
        = r.currentValue + q * (r.targetValue - r.currentValue)) ∧
    (∀ b, b ≤ r.startBeat → sampleAt r b = r.currentValue) ∧
    (∀ b, r.startBeat + duration ≤ b → sampleAt r b = r.targetValue) := by
  have hlt : r.startBeat < r.endBeat := by rw [he]; linarith
  have hle : r.startBeat ≤ r.endBeat := le_of_lt hlt
  refine ⟨sampleAt_start r hlt, sampleAt_right r _ hle he.le, ?_, ?_, ?_⟩
  · intro q hq0 hq1
    rcases eq_or_lt_of_le hq1 with h1 | h1
    · subst h1
      have h2 : r.startBeat + 1 * duration = r.startBeat + duration := by ring
      rw [h2, sampleAt_right r _ hle he.le]
      ring
    · have hblt : r.startBeat + q * duration < r.endBeat := by
        rw [he]
        nlinarith
      have hbge : ¬ r.startBeat + q * duration < r.startBeat := by nlinarith
      simp only [sampleAt, if_neg hbge, if_neg (not_le.mpr hblt)]
      rw [he]
      field_simp
      ring
  · intro b hb
    rcases eq_or_lt_of_le hb with h | h
    · rw [h, sampleAt_start r hlt]
    · exact sampleAt_left r b h
  · intro b hb
    exact sampleAt_right r b hle (by rw [he]; exact hb)

/-- C3 witness: the interpolation properties at a concrete ramp state. -/
theorem sampleAt_linear_clamped_witness :
    (0 : ℚ) < 4 ∧ (⟨2, 10, 1, 5, none⟩ : RampState).endBeat = 1 + 4 ∧
    sampleAt ⟨2, 10, 1, 5, none⟩ (1 + (1 / 2 : ℚ) * 4) = 2 + (1 / 2 : ℚ) * (10 - 2) := by
  refine ⟨by norm_num, by norm_num, ?_⟩
  exact (sampleAt_linear_clamped ⟨2, 10, 1, 5, none⟩ 4 (by norm_num)
    (by norm_num)).2.2.1 (1 / 2) (by norm_num) (by norm_num)

/-- C4: on an idle track, a zero-duration ramp is an immediate set —
`getCurrentValue` straight afterwards returns the target, and every later
sample (until the next operation) equals the target: no intermediate
interpolated values appear. -/
theorem ramp_zero_duration_immediate (s : Scheduler) (t : Fin 7) (v now : ℚ)
    (hidle : isRamping (s t) now = false) :
    schedGetCurrentValue (schedRequestRamp s t v 0 now) t now = v ∧
    ∀ b, now ≤ b → sampleAt (requestRamp (s t) v 0 now) b = v := by
  have hreq : requestRamp (s t) v 0 now
      = ⟨sampleAt (s t) now, v, now, now + 0, none⟩ := by
    simp [requestRamp, hidle]
  have hsample : ∀ b, now ≤ b → sampleAt (requestRamp (s t) v 0 now) b = v := by
    intro b hb
    rw [hreq]
    exact sampleAt_right _ b (by norm_num) (by simpa using hb)
  refine ⟨?_, hsample⟩
  have hsr : schedRequestRamp s t v 0 now t = requestRamp (s t) v 0 now := by
    simp [schedRequestRamp]
  rw [schedGetCurrentValue, getCurrentValue, hsr]
  exact hsample now le_rfl

/-- C4 witness: setting track 0 of an idle scheduler to 5 with duration 0
at beat 3 reads back 5 immediately. -/
theorem ramp_zero_duration_immediate_witness :
    isRamping ((fun _ => ⟨0, 0, 0, 0, none⟩ : Scheduler) 0) 3 = false ∧
    schedGetCurrentValue
      (schedRequestRamp (fun _ => ⟨0, 0, 0, 0, none⟩) 0 5 0 3) 0 3 = 5 :=
  ⟨by decide,
   (ramp_zero_duration_immediate (fun _ => ⟨0, 0, 0, 0, none⟩) 0 5 3 (by decide)).1⟩

/-- C9: the cross-thread fader read always returns a value inside
`[min(currentValue, targetValue), max(currentValue, targetValue)]` of the
track's ramp state: every whole-state snapshot the reader can observe
samples inside that interval, so no out-of-range (torn) value is ever
returned. -/
theorem getCurrentValue_in_range (s : Scheduler) (t : Fin 7) (now : ℚ) :
    min (s t).currentValue (s t).targetValue ≤ schedGetCurrentValue s t now ∧
    schedGetCurrentValue s t now ≤ max (s t).currentValue (s t).targetValue :=
  sampleAt_between (s t) now

/-- C2: a second ramp issued while the first is active is queued, not
applied: the active trajectory is unchanged by the request, the fader
reaches the first target `A` at the first ramp's end beat, and only then
does the queued ramp begin — starting from `A`, ending at its originally
requested end beat when that beat has not yet passed and immediately
otherwise, and reaching `B` at that end. -/
theorem ramp_request_queued_two_stage (r0 : RampState) (A d1 B d2 b0 b1 : ℚ)
    (hidle : isRamping r0 b0 = false) (hd1 : 0 < d1)
    (hb0 : b0 ≤ b1) (hb1 : b1 < b0 + d1) :
    requestRamp (requestRamp r0 A d1 b0) B d2 b1
      = { requestRamp r0 A d1 b0 with queued := some (B, b1 + d2) } ∧
    (∀ b, sampleAt (requestRamp (requestRamp r0 A d1 b0) B d2 b1) b
      = sampleAt (requestRamp r0 A d1 b0) b) ∧
    sampleAt (requestRamp (requestRamp r0 A d1 b0) B d2 b1) (b0 + d1) = A ∧
    (completeRamp (requestRamp (requestRamp r0 A d1 b0) B d2 b1)).currentValue = A ∧
    (completeRamp (requestRamp (requestRamp r0 A d1 b0) B d2 b1)).targetValue = B ∧
    (completeRamp (requestRamp (requestRamp r0 A d1 b0) B d2 b1)).startBeat = b0 + d1 ∧
    (b0 + d1 ≤ b1 + d2 →
      (completeRamp (requestRamp (requestRamp r0 A d1 b0) B d2 b1)).endBeat = b1 + d2) ∧
    (b1 + d2 < b0 + d1 →
      (completeRamp (requestRamp (requestRamp r0 A d1 b0) B d2 b1)).endBeat = b0 + d1) ∧
    sampleAt (completeRamp (requestRamp (requestRamp r0 A d1 b0) B d2 b1))
      (completeRamp (requestRamp (requestRamp r0 A d1 b0) B d2 b1)).endBeat = B := by
  have h1 : requestRamp r0 A d1 b0 = ⟨sampleAt r0 b0, A, b0, b0 + d1, none⟩ := by
    simp [requestRamp, hidle]
  have h4 : requestRamp (requestRamp r0 A d1 b0) B d2 b1
      = ⟨sampleAt r0 b0, A, b0, b0 + d1, some (B, b1 + d2)⟩ := by
    rw [h1]
    simp [requestRamp, isRamping, hb1]
  have h3 : requestRamp (requestRamp r0 A d1 b0) B d2 b1
      = { requestRamp r0 A d1 b0 with queued := some (B, b1 + d2) } := by
    rw [h4, h1]
  have h5 : completeRamp (requestRamp (requestRamp r0 A d1 b0) B d2 b1)
      = ⟨A, B, b0 + d1, max (b1 + d2) (b0 + d1), none⟩ := by
    rw [h4, completeRamp]
  refine ⟨h3, ?_, ?_, ?_, ?_, ?_, ?_, ?_, ?_⟩
  · intro b
    rw [h4, h1]
    simp [sampleAt]
  · rw [h4]
    exact sampleAt_right _ _ (by simp; linarith) (by simp)
  · rw [h5]
  · rw [h5]
  · rw [h5]
  · intro h
    rw [h5]
    simp [max_eq_left h]
  · intro h
    rw [h5]
    simp [max_eq_right (le_of_lt h)]
  · rw [h5]
    exact sampleAt_right _ _ (by simp) le_rfl

/-- C2 witness: ramp track from 0 toward 1 over beats [0,2]; at beat 1
request a ramp to 5 ending at beat 5; the fader samples 1 (= A) at beat 2. -/
theorem ramp_request_queued_two_stage_witness :
    isRamping (⟨0, 0, 0, 0, none⟩ : RampState) 0 = false ∧ (0 : ℚ) < 2 ∧
    (0 : ℚ) ≤ 1 ∧ (1 : ℚ) < 0 + 2 ∧
    sampleAt (requestRamp (requestRamp ⟨0, 0, 0, 0, none⟩ 1 2 0) 5 4 1) (0 + 2) = 1 :=
  ⟨by decide, by norm_num, by norm_num, by norm_num,
   (ramp_request_queued_two_stage ⟨0, 0, 0, 0, none⟩ 1 2 5 4 0 1
     (by decide) (by norm_num) (by norm_num) (by norm_num)).2.2.1⟩

/-! ## Theorems: preference merge -/

theorem mergeTree_leaf (v : Int) (r : PrefTree) :
    mergeTree (PrefTree.leaf v) r = PrefTree.leaf v := by
  cases r <;> (rw [mergeTree] <;> intro ls rs h h2 <;> simp at h)

theorem mergeTree_node (ls rs : List (String × PrefTree)) :
    mergeTree (PrefTree.node ls) (PrefTree.node rs)
      = PrefTree.node (mergeChildren ls rs) := by
  rw [mergeTree.eq_def, mergeChildren]
  simp [List.map_attach]

theorem hasKey_false_iff (k : String) (l : List (String × PrefTree)) :
    hasKey k l = false ↔ lookupKey k l = none := by
  unfold hasKey
  cases lookupKey k l <;> simp

theorem hasKey_of_mem (q : String × PrefTree) (l : List (String × PrefTree))
    (h : q ∈ l) : hasKey q.1 l = true := by
  induction l with
  | nil => cases h
  | cons hd tl ih =>
      unfold hasKey lookupKey
      by_cases hk : hd.1 = q.1
      · rcases hd with ⟨k', v'⟩
        simp at hk
        simp [hk]
      · rcases List.mem_cons.mp h with h1 | h1
        · rw [h1] at hk
          exact absurd rfl hk
        · rcases hd with ⟨k', v'⟩
          simp only [] at hk
          simp [hk]
          exact ih h1

theorem lookupKey_eq_of_mem (k : String) (v : PrefTree) (l : List (String × PrefTree))
    (hnd : (l.map Prod.fst).Nodup) (hmem : (k, v) ∈ l) : lookupKey k l = some v := by
  induction l with
  | nil => cases hmem
  | cons hd tl ih =>
      rcases hd with ⟨k', v'⟩
      rcases List.mem_cons.mp hmem with h1 | h1
      · rw [← h1]
        simp [lookupKey]
      · have hk : k' ≠ k := by
          intro hc
          subst hc
          have hcon : k' ∈ tl.map Prod.fst := List.mem_map.mpr ⟨(k', v), h1, rfl⟩
          exact (List.nodup_cons.mp hnd).1 hcon
        simp [lookupKey, hk]
        exact ih (List.nodup_cons.mp hnd).2 h1

theorem lookupKey_append_left (a b : List (String × PrefTree)) (k : String)
    (v : PrefTree) (h : lookupKey k a = some v) : lookupKey k (a ++ b) = some v := by
  induction a with
  | nil => simp [lookupKey] at h
  | cons hd tl ih =>
      rcases hd with ⟨k', v'⟩
      by_cases hk : k' = k
      · simp [lookupKey, hk] at h ⊢
        exact h
      · simp [lookupKey, hk] at h ⊢
        exact ih h

theorem lookupKey_append_right (a b : List (String × PrefTree)) (k : String)
    (h : lookupKey k a = none) : lookupKey k (a ++ b) = lookupKey k b := by
  induction a with
  | nil => simp
  | cons hd tl ih =>
      rcases hd with ⟨k', v'⟩
      by_cases hk : k' = k
      · simp [lookupKey, hk] at h
      · simp [lookupKey, hk] at h ⊢
        exact ih h

theorem lookupKey_mergeMap (ls rs : List (String × PrefTree)) (k : String) (lv : PrefTree)
    (h : lookupKey k ls = some lv) :
    lookupKey k (ls.map fun p =>
      (p.1, match lookupKey p.1 rs with
            | some rv => mergeTree p.2 rv
            | none => p.2))
      = some (match lookupKey k rs with
              | some rv => mergeTree lv rv
              | none => lv) := by
  induction ls with
  | nil => simp [lookupKey] at h
  | cons hd tl ih =>
      rcases hd with ⟨k', v'⟩
      by_cases hk : k' = k
      · subst hk
        simp [lookupKey] at h
        subst h
        simp [lookupKey]
      · simp [lookupKey, hk] at h ⊢
        exact ih h

theorem lookupKey_mergeMap_none (ls rs : List (String × PrefTree)) (k : String)
    (h : lookupKey k ls = none) :
    lookupKey k (ls.map fun p =>
      (p.1, match lookupKey p.1 rs with
            | some rv => mergeTree p.2 rv
            | none => p.2)) = none := by
  induction ls with
  | nil => simp [lookupKey]
  | cons hd tl ih =>
      rcases hd with ⟨k', v'⟩
      by_cases hk : k' = k
      · simp [lookupKey, hk] at h
      · simp [lookupKey, hk] at h ⊢
        exact ih h

theorem lookupKey_filter_not_has (ls rs : List (String × PrefTree)) (k : String)
    (h : hasKey k ls = false) :
    lookupKey k (rs.filter fun q => !(hasKey q.1 ls)) = lookupKey k rs := by
  induction rs with
  | nil => simp
  | cons hd tl ih =>
      rcases hd with ⟨k', v'⟩
      by_cases hk' : hasKey k' ls = true
      · have hne : k' ≠ k := by
          intro hc
          subst hc
          rw [h] at hk'
          exact Bool.false_ne_true hk'
        simp [List.filter_cons, hk', lookupKey, hne]
        exact ih
      · rw [Bool.not_eq_true] at hk'
        by_cases hkk : k' = k
        · simp [List.filter_cons, hk', lookupKey, hkk, h]
        · simp [List.filter_cons, hk', lookupKey, hkk]
          exact ih

theorem mergeTree_idem (X : PrefTree) (h : WFTree X) : mergeTree X X = X := by
  induction h with
  | leaf v => exact mergeTree_leaf v (PrefTree.leaf v)
  | node cs hnd hwf ih =>
      rw [mergeTree_node]
      congr 1
      unfold mergeChildren
      have hfil : (cs.filter fun q => !(hasKey q.1 cs)) = [] := by
        rw [List.filter_eq_nil]
        intro q hq
        simp [hasKey_of_mem q cs hq]
      rw [hfil, List.append_nil]
      have hmap : ∀ p ∈ cs, (p.1, (match lookupKey p.1 cs with
            | some rv => mergeTree p.2 rv
            | none => p.2)) = p := by
        intro p hp
        have hl : lookupKey p.1 cs = some p.2 :=
          lookupKey_eq_of_mem p.1 p.2 cs hnd hp
        simp only [hl, ih p hp]
      calc cs.map (fun p => (p.1, (match lookupKey p.1 cs with
            | some rv => mergeTree p.2 rv
            | none => p.2)))
          = cs.map id := List.map_congr_left hmap
        _ = cs := List.map_id cs

theorem mergeChildren_lookup_left (ls rs : List (String × PrefTree)) (k : String)
    (lv : PrefTree) (h1 : lookupKey k ls = some lv) (h2 : lookupKey k rs = none) :
    lookupKey k (mergeChildren ls rs) = some lv := by
  unfold mergeChildren
  apply lookupKey_append_left
  have h := lookupKey_mergeMap ls rs k lv h1
  rw [h2] at h
  simpa using h

theorem mergeChildren_lookup_right (ls rs : List (String × PrefTree)) (k : String)
    (rv : PrefTree) (h1 : lookupKey k ls = none) (h2 : lookupKey k rs = some rv) :
    lookupKey k (mergeChildren ls rs) = some rv := by
  unfold mergeChildren
  rw [lookupKey_append_right _ _ _ (lookupKey_mergeMap_none ls rs k h1)]
  rw [lookupKey_filter_not_has ls rs k ((hasKey_false_iff k ls).mpr h1)]
  exact h2

theorem mergeChildren_lookup_both (ls rs : List (String × PrefTree)) (k : String)
    (lv rv : PrefTree) (h1 : lookupKey k ls = some lv) (h2 : lookupKey k rs = some rv) :
    lookupKey k (mergeChildren ls rs) = some (mergeTree lv rv) := by
  unfold mergeChildren
  apply lookupKey_append_left
  have h := lookupKey_mergeMap ls rs k lv h1
  rw [h2] at h
  simpa using h

theorem merge_example_concrete :
    mergeTree (PrefTree.node [("a", PrefTree.leaf 1)])
      (PrefTree.node [("a", PrefTree.leaf 2), ("b", PrefTree.leaf 3)])
      = PrefTree.node [("a", PrefTree.leaf 1), ("b", PrefTree.leaf 3)] := by
  rw [mergeTree_node]
  unfold mergeChildren
  simp [lookupKey, hasKey, mergeTree_leaf]

/-- C5: the preference merge is a recursive deep merge — a local leaf
always wins over the remote value for the same key, containers are merged
key-by-key (key present only on one side: that side's value is kept; key
present on both: the values are merged recursively, so a leaf conflict
resolves to the local value), merging is idempotent on well-formed trees,
and `merge {a:1} {a:2,b:3} = {a:1,b:3}`. -/
theorem merge_deep_local_biased :
    (∀ X, WFTree X → mergeTree X X = X) ∧
    (∀ v r, mergeTree (PrefTree.leaf v) r = PrefTree.leaf v) ∧
    (∀ ls rs, mergeTree (PrefTree.node ls) (PrefTree.node rs)
        = PrefTree.node (mergeChildren ls rs)) ∧
    (∀ ls rs k lv, lookupKey k ls = some lv → lookupKey k rs = none →
        lookupKey k (mergeChildren ls rs) = some lv) ∧
    (∀ ls rs k rv, lookupKey k ls = none → lookupKey k rs = some rv →
        lookupKey k (mergeChildren ls rs) = some rv) ∧
    (∀ ls rs k lv rv, lookupKey k ls = some lv → lookupKey k rs = some rv →
        lookupKey k (mergeChildren ls rs) = some (mergeTree lv rv)) ∧
    mergeTree (PrefTree.node [("a", PrefTree.leaf 1)])
        (PrefTree.node [("a", PrefTree.leaf 2), ("b", PrefTree.leaf 3)])
      = PrefTree.node [("a", PrefTree.leaf 1), ("b", PrefTree.leaf 3)] :=
  ⟨mergeTree_idem, mergeTree_leaf, mergeTree_node,
   fun ls rs k lv => mergeChildren_lookup_left ls rs k lv,
   fun ls rs k rv => mergeChildren_lookup_right ls rs k rv,
   fun ls rs k lv rv => mergeChildren_lookup_both ls rs k lv rv,
   merge_example_concrete⟩

/-- C5 witness: merging the concrete well-formed tree `{a:1}` with itself
yields itself. -/
theorem merge_deep_local_biased_witness :
    WFTree (PrefTree.node [("a", PrefTree.leaf 1)]) ∧
    mergeTree (PrefTree.node [("a", PrefTree.leaf 1)])
      (PrefTree.node [("a", PrefTree.leaf 1)])
      = PrefTree.node [("a", PrefTree.leaf 1)] := by
  have hwf : WFTree (PrefTree.node [("a", PrefTree.leaf 1)]) := by
    apply WFTree.node
    · simp
    · intro p hp
      rw [List.mem_singleton.mp hp]
      exact WFTree.leaf 1
  exact ⟨hwf, merge_deep_local_biased.1 _ hwf⟩

/-! ## Theorems: transport streamer and local cache -/

theorem startMsgs_init :
    startMsgs initStreamer (1 / 4) 0 = ⟨true, 1 / 4, 1 / 4⟩ := by
  unfold startMsgs initStreamer
  norm_num

theorem tickCount_start_sixteen :
    tickCount (⟨true, 1 / 4, 1 / 4⟩ : StreamerState) 4 = 16 := by
  unfold tickCount
  norm_num
  decide

theorem ticks_list :
    (advanceClock (startMsgs initStreamer (1 / 4) 0) 4).1
      = (List.range 16).map (fun i : ℕ => 1 / 4 + (i : ℚ) * (1 / 4)) := by
  unfold advanceClock
  rw [startMsgs_init, tickCount_start_sixteen]

theorem ticks_chain :
    List.Chain' (fun a b => a < b ∧ b - a = 1 / 4)
      (advanceClock (startMsgs initStreamer (1 / 4) 0) 4).1 := by
  rw [ticks_list]
  refine List.chain'_map_of_chain' _ (fun a b hab => ?_)
    ((List.chain'_range_succ (fun a b => b = a + 1) 15).mpr (fun m hm => rfl))
  subst hab
  constructor
  · push_cast
    linarith
  · push_cast
    ring

theorem ticks_first_last :
    (1 / 4 : ℚ) ∈ (advanceClock (startMsgs initStreamer (1 / 4) 0) 4).1 ∧
    (4 : ℚ) ∈ (advanceClock (startMsgs initStreamer (1 / 4) 0) 4).1 := by
  rw [ticks_list]
  constructor
  · refine List.mem_map.mpr ⟨0, ?_, ?_⟩
    · exact List.mem_range.mpr (by norm_num)
    · norm_num
  · refine List.mem_map.mpr ⟨15, ?_, ?_⟩
    · exact List.mem_range.mpr (by norm_num)
    · norm_num

theorem ticks_len :
    (advanceClock (startMsgs initStreamer (1 / 4) 0) 4).1.length = 16 := by
  rw [ticks_list, List.length_map, List.length_range]

theorem stopped_no_ticks (st : StreamerState) (toBeat : ℚ) :
    (advanceClock (stopMsgs st) toBeat).1 = [] := by
  simp [advanceClock, tickCount, stopMsgs]

/-- C8: starting transport messages with beat period 0.25 and advancing the
audio clock to beat 4 emits exactly 16 beat notifications, strictly
increasing and spaced exactly 0.25 apart, among them the first tick 0.25
and the last tick 4; after `stop`, no advance of the clock emits any tick. -/
theorem transport_sixteen_ticks :
    (advanceClock (startMsgs initStreamer (1 / 4) 0) 4).1.length = 16 ∧
    List.Chain' (fun a b => a < b ∧ b - a = 1 / 4)
      (advanceClock (startMsgs initStreamer (1 / 4) 0) 4).1 ∧
    (1 / 4 : ℚ) ∈ (advanceClock (startMsgs initStreamer (1 / 4) 0) 4).1 ∧
    (4 : ℚ) ∈ (advanceClock (startMsgs initStreamer (1 / 4) 0) 4).1 ∧
    (∀ st toBeat, (advanceClock (stopMsgs st) toBeat).1 = []) :=
  ⟨ticks_len, ticks_chain, ticks_first_last.1, ticks_first_last.2, stopped_no_ticks⟩

/-- C10: for an experience id with no cached metadata, the theme-count
queries degrade to zero rather than failing — the theme count is 0 and the
local theme statistics report no themes and no downloaded themes. -/
theorem theme_count_missing_zero (st : LocalStore) (expid : ℤ)
    (h : ∀ p ∈ st.cached, p.1 ≠ expid) :
    findCached st expid = none ∧
    experiencesGetThemeCount st expid = 0 ∧
    localThemeCount st expid = ⟨0, 0⟩ ∧
    (localThemeCount st expid).themeCount = 0 ∧
    (localThemeCount st expid).downloadedThemeCount = 0 := by
  have hf : findCached st expid = none := by
    unfold findCached
    rw [List.find?_eq_none.mpr]
    · rfl
    · intro p hp
      simp [h p hp]
  refine ⟨hf, ?_, ?_, ?_, ?_⟩ <;> simp [experiencesGetThemeCount, localThemeCount, hf]

/-- C10 witness: querying experience 9 against a store caching only
experience 5 yields a theme count of 0. -/
theorem theme_count_missing_zero_witness :
    (∀ p ∈ (⟨[(5, ⟨3, 1⟩)]⟩ : LocalStore).cached, p.1 ≠ 9) ∧
    experiencesGetThemeCount ⟨[(5, ⟨3, 1⟩)]⟩ 9 = 0 :=
  ⟨by decide, (theme_count_missing_zero ⟨[(5, ⟨3, 1⟩)]⟩ 9 (by decide)).2.1⟩

end Amos
